import Mathlib

/-!
# Verification of the ts-workerpool coordination core

Shallow embedding of `src/worker_pool.ts`: the `Lock` wait/notify
primitive, the doubly-linked `TaskQueue`, the `AvailabilityQueue`
worker-availability tracker, and the `WorkerPool` event handlers
(`addTask`, the worker `message` handler).  Asynchronous suspension
(`await lock.acquire()`) is modelled by explicit state: an operation
that would suspend is represented as leaving the state unchanged until
a matching signal, and the waiter continuation stored in
`Lock.resolve` is identified by a number.
-/

namespace WorkerPoolTS

/-! ## Lock (`class Lock` in worker_pool.ts)

`resolve` holds the pending waiter's continuation (`undefined` when no
waiter is registered).  A waiter is identified by a `Nat`. -/

structure Lock where
  resolve : Option Nat
  deriving DecidableEq, Repr

/-- `acquire()` registers the caller as the pending waiter, overwriting
any previously stored continuation, and suspends. -/
def Lock.acquire (w : Nat) (_l : Lock) : Lock :=
  { resolve := some w }

/-- `release()`: if a waiter is registered, resume it and clear the
registration; otherwise do nothing.  Returns the resumed waiter (if
any) together with the new lock state. -/
def Lock.release (l : Lock) : Option Nat × Lock :=
  match l.resolve with
  | some w => (some w, { resolve := none })
  | none => (none, l)

/-- Operations that can be performed on a `Lock`. -/
inductive LockOp where
  | wait (w : Nat)
  | signal
  deriving DecidableEq, Repr

/-- Run a list of lock operations, accumulating the list of resumed
waiters in order. -/
def runLock : Lock × List Nat → List LockOp → Lock × List Nat
  | s, [] => s
  | (l, log), LockOp.wait w :: ops => runLock (Lock.acquire w l, log) ops
  | (l, log), LockOp.signal :: ops =>
      let r := Lock.release l
      runLock (r.2, log ++ r.1.toList) ops

/-! ## AvailabilityQueue (`class AvailabilityQueue`) -/

structure AvailabilityQueue where
  availability : List Bool
  availabilityCount : Int
  lock : Lock
  deriving DecidableEq, Repr

/-- The constructor: `size` slots, all busy, count 0. -/
def mkAvailabilityQueue (size : Nat) : AvailabilityQueue :=
  { availability := List.replicate size false
    availabilityCount := 0
    lock := { resolve := none } }

/-- `freeze(id)`: if the slot's flag is set, clear it and decrement the
count.  `availability[id]` out of range reads as `undefined` (falsy),
modelled by `getD id false`. -/
def AvailabilityQueue.freeze (id : Nat) (q : AvailabilityQueue) : AvailabilityQueue :=
  if q.availability.getD id false then
    { q with availability := q.availability.set id false
             availabilityCount := q.availabilityCount - 1 }
  else q

/-- `enable(id)`: if the slot's flag is clear, set it, increment the
count and release the lock. -/
def AvailabilityQueue.enable (id : Nat) (q : AvailabilityQueue) : AvailabilityQueue :=
  if q.availability.getD id false then q
  else
    { q with availability := q.availability.set id true
             availabilityCount := q.availabilityCount + 1
             lock := (q.lock.release).2 }

/-- The ascending `for` loop of `getAvailability`: index of the first
`true` flag. -/
def scanIdle : List Bool → Option Nat
  | [] => none
  | b :: rest => if b then some 0 else (scanIdle rest).map (· + 1)

/-- The body of `getAvailability()` once the `while` guard
`availabilityCount <= 0` has been passed: scan slots in ascending
order; on the first set flag, `freeze` it and return its id; if no
flag is set, return `-1`. -/
def AvailabilityQueue.getAvailability (q : AvailabilityQueue) : Int × AvailabilityQueue :=
  match scanIdle q.availability with
  | some i => (Int.ofNat i, q.freeze i)
  | none => (-1, q)

/-- Operations observable on an `AvailabilityQueue`. -/
inductive AQOp where
  | freeze (id : Nat)
  | enable (id : Nat)
  | claim
  deriving DecidableEq, Repr

/-- One operation.  A `claim` (a `getAvailability` call) proceeds only
when `availabilityCount > 0`; otherwise the caller stays suspended in
the `while ... acquire()` loop and the state is unchanged. -/
def AQOp.apply (q : AvailabilityQueue) : AQOp → AvailabilityQueue
  | AQOp.freeze id => q.freeze id
  | AQOp.enable id => q.enable id
  | AQOp.claim =>
      if 0 < q.availabilityCount then (q.getAvailability).2 else q

def applyOps (q : AvailabilityQueue) (ops : List AQOp) : AvailabilityQueue :=
  ops.foldl AQOp.apply q

/-- An operation is meaningful for a tracker of `size` slots when the
slot ids it names are in range (`enable` of an out-of-range id would
grow the JS array, which the fixed-width model does not represent). -/
def AQOp.ok (size : Nat) : AQOp → Bool
  | AQOp.enable id => id < size
  | _ => true

/-- Idle-count invariant: the stored count equals the number of slots
whose flag is `true`. -/
def AQInv (q : AvailabilityQueue) : Prop :=
  q.availabilityCount = (q.availability.count true : Int)

instance (q : AvailabilityQueue) : Decidable (AQInv q) := by
  unfold AQInv; infer_instance

/-! ## TaskQueue (`class TaskQueue`)

The mutable doubly-linked list is embedded with an explicit arena:
`nodes` is the list of all nodes ever allocated (a node's identity is
its index in the arena, standing for its object reference), and
`head`/`tail` hold node identities.  JS garbage collection of popped
nodes has no observable effect and is not modelled. -/

structure Node (V : Type) where
  prev : Option Nat
  next : Option Nat
  value : V
  deriving DecidableEq, Repr

structure TaskQueue (V : Type) where
  nodes : List (Node V)
  head : Option Nat
  tail : Option Nat
  lock : Lock
  deriving DecidableEq, Repr

def mkTaskQueue (V : Type) : TaskQueue V :=
  { nodes := [], head := none, tail := none, lock := { resolve := none } }

/-- `push(item)`: if a tail exists, allocate a node after it (the old
tail's `next` is redirected to the new node); otherwise the new node
becomes both head and tail.  In both cases the method then calls
`this.lock.release()` — unconditionally.  Returns the new queue state
and the waiter resumed by that release, if any. -/
def TaskQueue.push (item : V) (q : TaskQueue V) : TaskQueue V × Option Nat :=
  let rel := q.lock.release
  match q.tail with
  | some t =>
      let nid := q.nodes.length
      let nodes2 :=
        match q.nodes.get? t with
        | some tn => (q.nodes.set t { tn with next := some nid }) ++ [⟨some t, none, item⟩]
        | none => q.nodes ++ [⟨some t, none, item⟩]
      ({ q with nodes := nodes2, tail := some nid, lock := rel.2 }, rel.1)
  | none =>
      let nid := q.nodes.length
      ({ q with nodes := q.nodes ++ [⟨none, none, item⟩],
                head := some nid, tail := some nid, lock := rel.2 }, rel.1)

/-- One dequeue step of the `pop()` generator, taken when the queue is
non-empty (`this.head` set).  Reads the head's value; if head and tail
are the same node both become `undefined`, otherwise the head moves to
`head.next` (whose `prev` is cleared).  `none` is returned when the
generator would suspend (`head` unset) or the state is corrupt (a
dangling reference, impossible for reachable states). -/
def TaskQueue.pop (q : TaskQueue V) : Option (V × TaskQueue V) :=
  match q.head with
  | none => none
  | some h =>
      match q.nodes.get? h with
      | none => none
      | some node =>
          if q.head = q.tail then
            some (node.value, { q with head := none, tail := none })
          else
            match node.next with
            | none => none
            | some h2 =>
                let nodes2 :=
                  match q.nodes.get? h2 with
                  | some n2 => q.nodes.set h2 { n2 with prev := none }
                  | none => q.nodes
                some (node.value, { q with nodes := nodes2, head := some h2 })

/-- The values stored in the queue, read off by following `next`
references from `head`; `fuel` bounds the walk so that the function is
total even on corrupt states. -/
def chainList (nodes : List (Node V)) : Nat → Option Nat → List V
  | _, none => []
  | 0, some _ => []
  | fuel+1, some i =>
      match nodes.get? i with
      | none => []
      | some nd => nd.value :: chainList nodes fuel nd.next

def TaskQueue.toList (q : TaskQueue V) : List V :=
  chainList q.nodes q.nodes.length q.head

/-- `Chain nodes i ids`: starting from node `i` and following `next`
references, one visits exactly the nodes `ids` (ending at a node whose
`next` is unset). -/
inductive Chain (nodes : List (Node V)) : Nat → List Nat → Prop
  | single (i : Nat) (nd : Node V) (hg : nodes.get? i = some nd) (hn : nd.next = none) :
      Chain nodes i [i]
  | cons (i j : Nat) (nd : Node V) (hg : nodes.get? i = some nd) (hn : nd.next = some j)
      (ids : List Nat) (hc : Chain nodes j ids) : Chain nodes i (i :: ids)

def valueAt [Inhabited V] (nodes : List (Node V)) (i : Nat) : V :=
  ((nodes.get? i).map Node.value).getD default

/-- The queue `q` represents the value list `l`: either it is empty
with both references unset, or `head` starts a duplicate-free chain
ending exactly at `tail` whose values are `l`. -/
def Abs [Inhabited V] (q : TaskQueue V) (l : List V) : Prop :=
  (q.head = none ∧ q.tail = none ∧ l = []) ∨
  (∃ h t ids, q.head = some h ∧ q.tail = some t ∧ Chain q.nodes h ids ∧
     ids.getLast? = some t ∧ ids.Nodup ∧ l = ids.map (valueAt q.nodes))

/-- Producer/consumer operations on the queue. -/
inductive QOp (V : Type) where
  | push (v : V)
  | pop
  deriving DecidableEq, Repr

/-- A trace state: the queue together with the log of values pushed
and the log of values the consumer has been yielded, each in order. -/
structure QTrace (V : Type) where
  queue : TaskQueue V
  pushed : List V
  popped : List V
  deriving DecidableEq, Repr

/-- One trace step.  A `pop` on an empty queue suspends: the state is
unchanged and nothing is yielded. -/
def QOp.apply (s : QTrace V) : QOp V → QTrace V
  | QOp.push v => { s with queue := (s.queue.push v).1, pushed := s.pushed ++ [v] }
  | QOp.pop =>
      match s.queue.pop with
      | none => s
      | some (v, q2) => { s with queue := q2, popped := s.popped ++ [v] }

def runQueue {V : Type} (ops : List (QOp V)) : QTrace V :=
  ops.foldl QOp.apply { queue := mkTaskQueue V, pushed := [], popped := [] }

/-! ## WorkerPool (`class WorkerPool`)

The pending-result table `notifications` (a JS `Map` from task id to
the `resolve` callback of the promise returned by `addTask`) is
embedded as an association list with unique keys; `crypto.randomUUID`
is an external id source, so generated ids appear as parameters.
Callbacks are opaque values of a type parameter `Cb`. -/

structure Task (P : Type) where
  id : Nat
  data : P
  deriving DecidableEq, Repr

instance {P : Type} [Inhabited P] : Inhabited (Task P) :=
  ⟨{ id := 0, data := default }⟩

structure WorkerPool (P Cb : Type) where
  availability : AvailabilityQueue
  taskQueue : TaskQueue (Task P)
  notifications : List (Nat × Cb)
  deriving DecidableEq, Repr

/-- JS `Map.prototype.get`. -/
def mapGet (m : List (Nat × Cb)) (k : Nat) : Option Cb :=
  m.lookup k

/-- JS `Map.prototype.delete` (ignoring the returned Boolean). -/
def mapDelete (m : List (Nat × Cb)) (k : Nat) : List (Nat × Cb) :=
  m.filter (fun p => p.1 != k)

/-- JS `Map.prototype.set`: overwrite in place if the key is present,
append otherwise. -/
def mapSet (m : List (Nat × Cb)) (k : Nat) (v : Cb) : List (Nat × Cb) :=
  if (m.lookup k).isSome then m.map (fun p => if p.1 = k then (k, v) else p)
  else m ++ [(k, v)]

/-- The `worker.on("message", ...)` handler for the worker at slot
`workerId`, receiving a completion event `{id, result}`: look the
Pending Result up, delete it from the table, invoke it (the invocation
is returned as an event `(callback, result)`), then `enable` the
worker's slot.  Results are of opaque type `R`. -/
def onMessage (workerId : Nat) (id : Nat) (result : R) (p : WorkerPool P Cb) :
    WorkerPool P Cb × Option (Cb × R) :=
  let notification := mapGet p.notifications id
  let p2 :=
    { p with notifications := mapDelete p.notifications id
             availability := p.availability.enable workerId }
  (p2, notification.map (fun cb => (cb, result)))

/-- The `worker.on("exit", ...)` handler: freeze the worker's slot. -/
def onExit (workerId : Nat) (p : WorkerPool P Cb) : WorkerPool P Cb :=
  { p with availability := p.availability.freeze workerId }

/-- `addTask(data)`: register the promise's `resolve` callback `cb`
under the freshly generated id, then push `{id, data}` onto the task
queue.  Nothing here consults worker availability or the worker list,
and no step can fail. -/
def addTask (id : Nat) (cb : Cb) (data : P) (p : WorkerPool P Cb) : WorkerPool P Cb :=
  { p with notifications := mapSet p.notifications id cb
           taskQueue := (p.taskQueue.push { id := id, data := data }).1 }

/-! ## Concrete states used to instantiate the theorems -/

/-- Tracker with slots {0,2,3} idle and {1} busy. -/
def aqC2 : AvailabilityQueue :=
  { availability := [true, false, true, true], availabilityCount := 3
    lock := { resolve := none } }

/-- Tracker with slot 1 idle and slot 0 busy. -/
def aqC10 : AvailabilityQueue :=
  { availability := [false, true], availabilityCount := 1
    lock := { resolve := none } }

/-- A three-slot tracker, all idle. -/
def aqC8 : AvailabilityQueue :=
  { availability := [true, true, true], availabilityCount := 3
    lock := { resolve := none } }

def opsC8 : List AQOp :=
  [AQOp.enable 0, AQOp.claim, AQOp.freeze 0, AQOp.enable 2, AQOp.claim]

def opsC1 : List AQOp :=
  [AQOp.enable 0, AQOp.enable 1, AQOp.claim, AQOp.freeze 1, AQOp.claim, AQOp.claim]

/-- A queue holding one value, whose gate has waiter 5 registered. -/
def tqC7 : TaskQueue Nat :=
  { nodes := [{ prev := none, next := none, value := 42 }]
    head := some 0, tail := some 0, lock := { resolve := some 5 } }

/-- A pool state with two registered Pending Results. -/
def poolC4 : WorkerPool Nat Nat :=
  { availability := mkAvailabilityQueue 2
    taskQueue := mkTaskQueue (Task Nat)
    notifications := [(5, 50), (7, 70)] }

/-- A fresh two-worker pool with no pending results. -/
def poolC5 : WorkerPool Nat Nat :=
  { availability := mkAvailabilityQueue 2
    taskQueue := mkTaskQueue (Task Nat)
    notifications := [] }

/-! ### Lemmas about `scanIdle` -/

theorem scanIdle_eq_none {l : List Bool} (h : scanIdle l = none) :
    ∀ b ∈ l, b = false := by
  induction l with
  | nil => intro b hb; cases hb
  | cons x rest ih =>
      cases x with
      | true => simp [scanIdle] at h
      | false =>
          simp only [scanIdle, Bool.false_eq_true, if_false, Option.map_eq_none'] at h
          intro b hb
          rcases List.mem_cons.mp hb with hb | hb
          · exact hb
          · exact ih h b hb

theorem scanIdle_some_spec {l : List Bool} {i : Nat} (h : scanIdle l = some i) :
    i < l.length ∧ l.getD i false = true ∧ ∀ j, j < i → l.getD j false = false := by
  induction l generalizing i with
  | nil => simp [scanIdle] at h
  | cons x rest ih =>
      cases x with
      | true =>
          simp [scanIdle] at h
          subst h
          exact ⟨Nat.succ_pos _, by simp, fun j hj => by omega⟩
      | false =>
          simp only [scanIdle, Bool.false_eq_true, if_false] at h
          cases hs : scanIdle rest with
          | none => rw [hs] at h; simp at h
          | some k =>
              rw [hs] at h
              simp at h
              obtain ⟨hk1, hk2, hk3⟩ := ih hs
              subst h
              refine ⟨by simp; omega, by simpa using hk2, ?_⟩
              intro j hj
              cases j with
              | zero => simp
              | succ j' =>
                  have : j' < k := by omega
                  simpa using hk3 j' this

theorem scanIdle_isSome_of_mem {l : List Bool} (h : true ∈ l) :
    ∃ i, scanIdle l = some i := by
  cases hs : scanIdle l with
  | some i => exact ⟨i, rfl⟩
  | none =>
      have := scanIdle_eq_none hs true h
      simp at this

/-! ### Lemmas about `List.set` and flags -/

theorem getD_set_ne {l : List Bool} {s id : Nat} (b : Bool) (hne : id ≠ s) :
    (l.set id b).getD s false = l.getD s false := by
  induction l generalizing s id with
  | nil => simp
  | cons x t ih =>
      cases id with
      | zero =>
          cases s with
          | zero => exact absurd rfl hne
          | succ s' => simp [List.set]
      | succ id' =>
          cases s with
          | zero => simp [List.set]
          | succ s' =>
              simp only [List.set, List.getD_cons_succ]
              exact ih (fun h => hne (by omega))

theorem getD_set_self_false {l : List Bool} {s : Nat} :
    (l.set s false).getD s false = false := by
  induction l generalizing s with
  | nil => simp
  | cons x t ih =>
      cases s with
      | zero => simp [List.set]
      | succ s' =>
          simp only [List.set, List.getD_cons_succ]
          exact ih

theorem getD_set_false {l : List Bool} {s id : Nat}
    (h : l.getD s false = false) : (l.set id false).getD s false = false := by
  by_cases hid : id = s
  · subst hid; exact getD_set_self_false
  · rw [getD_set_ne false hid]; exact h

theorem lt_length_of_getD_true {l : List Bool} {i : Nat}
    (h : l.getD i false = true) : i < l.length := by
  by_contra hge
  rw [List.getD_eq_default _ _ (by omega)] at h
  cases h

theorem count_true_set_false {l : List Bool} {i : Nat}
    (h : l.getD i false = true) :
    ((l.set i false).count true : Int) = (l.count true : Int) - 1 := by
  induction l generalizing i with
  | nil => simp at h
  | cons x t ih =>
      cases i with
      | zero =>
          rw [List.getD_cons_zero] at h
          subst h
          simp [List.set, List.count_cons]
      | succ i' =>
          rw [List.getD_cons_succ] at h
          have hrec := ih h
          cases x <;> simp [List.set, List.count_cons] <;> push_cast at hrec ⊢ <;> omega

theorem count_true_set_true {l : List Bool} {i : Nat} (hi : i < l.length)
    (h : l.getD i false = false) :
    ((l.set i true).count true : Int) = (l.count true : Int) + 1 := by
  induction l generalizing i with
  | nil => simp at hi
  | cons x t ih =>
      cases i with
      | zero =>
          rw [List.getD_cons_zero] at h
          subst h
          simp [List.set, List.count_cons]
      | succ i' =>
          rw [List.getD_cons_succ] at h
          have hi' : i' < t.length := by simpa using hi
          have hrec := ih hi' h
          cases x <;> simp [List.set, List.count_cons] <;> push_cast at hrec ⊢ <;> omega

/-! ### Preservation of the idle-count invariant -/

theorem freeze_inv {q : AvailabilityQueue} {id : Nat} (h : AQInv q) :
    AQInv (q.freeze id) := by
  unfold AvailabilityQueue.freeze
  by_cases hflag : q.availability.getD id false = true
  · simp only [hflag, if_true]
    unfold AQInv at h ⊢
    simp only
    rw [count_true_set_false hflag]
    omega
  · simp only [hflag]
    simpa using h

theorem enable_inv {q : AvailabilityQueue} {id : Nat}
    (hid : id < q.availability.length) (h : AQInv q) :
    AQInv (q.enable id) := by
  unfold AvailabilityQueue.enable
  by_cases hflag : q.availability.getD id false = true
  · simp only [hflag, if_true]
    exact h
  · have hflag' : q.availability.getD id false = false := by
      cases hb : q.availability.getD id false
      · rfl
      · exact absurd hb hflag
    simp only [hflag']
    unfold AQInv at h ⊢
    simp only [Bool.false_eq_true, if_false]
    rw [count_true_set_true hid hflag']
    omega

theorem getAvailability_inv {q : AvailabilityQueue} (h : AQInv q) :
    AQInv (q.getAvailability).2 := by
  unfold AvailabilityQueue.getAvailability
  cases hs : scanIdle q.availability with
  | none => exact h
  | some i => exact freeze_inv h

theorem freeze_length (q : AvailabilityQueue) (id : Nat) :
    (q.freeze id).availability.length = q.availability.length := by
  unfold AvailabilityQueue.freeze
  split <;> simp

theorem enable_length (q : AvailabilityQueue) (id : Nat) :
    (q.enable id).availability.length = q.availability.length := by
  unfold AvailabilityQueue.enable
  split <;> simp

theorem apply_length (q : AvailabilityQueue) (op : AQOp) :
    (op.apply q).availability.length = q.availability.length := by
  cases op with
  | freeze id => exact freeze_length q id
  | enable id => exact enable_length q id
  | claim =>
      unfold AQOp.apply
      by_cases hpos : 0 < q.availabilityCount
      · simp only [hpos, if_true]
        unfold AvailabilityQueue.getAvailability
        cases hs : scanIdle q.availability with
        | none => rfl
        | some i => exact freeze_length q i
      · simp [hpos]

theorem apply_inv {size : Nat} {q : AvailabilityQueue} {op : AQOp}
    (hok : AQOp.ok size op = true) (hlen : q.availability.length = size)
    (h : AQInv q) : AQInv (op.apply q) := by
  cases op with
  | freeze id => exact freeze_inv h
  | enable id =>
      have hid : id < q.availability.length := by
        unfold AQOp.ok at hok
        simp at hok
        omega
      exact enable_inv hid h
  | claim =>
      unfold AQOp.apply
      by_cases hpos : 0 < q.availabilityCount
      · simp only [hpos, if_true]
        exact getAvailability_inv h
      · simp only [hpos, if_false]
        exact h

theorem applyOps_inv {size : Nat} (ops : List AQOp) (q : AvailabilityQueue)
    (hlen : q.availability.length = size) (h : AQInv q)
    (hok : ∀ op ∈ ops, AQOp.ok size op = true) :
    AQInv (applyOps q ops) := by
  induction ops generalizing q with
  | nil => exact h
  | cons op rest ih =>
      have h1 : AQInv (op.apply q) :=
        apply_inv (hok op (List.mem_cons_self op rest)) hlen h
      have h2 : (op.apply q).availability.length = size := by
        rw [apply_length]; exact hlen
      exact ih (op.apply q) h2 h1 (fun o ho => hok o (List.mem_cons_of_mem op ho))

/-- C1: at every observable point — initially, and after any sequence
of `freeze`, `enable` and `getAvailability` operations on slot ids in
range — the stored `availabilityCount` equals the number of slots
whose availability flag is `true`. -/
theorem availability_idle_count_invariant (size : Nat) (ops : List AQOp)
    (hok : ∀ op ∈ ops, AQOp.ok size op = true) :
    AQInv (applyOps (mkAvailabilityQueue size) ops) := by
  refine applyOps_inv ops _ ?_ ?_ hok
  · simp [mkAvailabilityQueue]
  · unfold AQInv mkAvailabilityQueue
    simp [List.count_replicate]

/-- Witness for C1 at a concrete operation sequence on a 2-slot tracker. -/
theorem availability_idle_count_invariant_witness :
    (∀ op ∈ opsC1, AQOp.ok 2 op = true) ∧
    AQInv (applyOps (mkAvailabilityQueue 2) opsC1) :=
  ⟨by decide, availability_idle_count_invariant 2 opsC1 (by decide)⟩

/-! ### Claims C2 and C10: what `getAvailability` returns -/

theorem freeze_eq_of_true {q : AvailabilityQueue} {id : Nat}
    (h : q.availability.getD id false = true) :
    q.freeze id = { q with availability := q.availability.set id false
                           availabilityCount := q.availabilityCount - 1 } := by
  unfold AvailabilityQueue.freeze
  simp only [h, if_true]

theorem getAvailability_eq_none {q : AvailabilityQueue}
    (hs : scanIdle q.availability = none) :
    q.getAvailability = (-1, q) := by
  unfold AvailabilityQueue.getAvailability
  rw [hs]

theorem getAvailability_eq_some {q : AvailabilityQueue} {i : Nat}
    (hs : scanIdle q.availability = some i) :
    q.getAvailability = (Int.ofNat i, q.freeze i) := by
  unfold AvailabilityQueue.getAvailability
  rw [hs]

/-- C2: on any tracker state satisfying the idle-count invariant with
`availabilityCount > 0`, `getAvailability` returns the smallest slot id
whose flag is idle, and the state it leaves behind has exactly that
slot's flag cleared and the count decremented. -/
theorem getAvailability_returns_least_idle (q : AvailabilityQueue)
    (hinv : AQInv q) (hpos : 0 < q.availabilityCount) :
    ∃ i, (q.getAvailability).1 = Int.ofNat i ∧
      q.availability.getD i false = true ∧
      (∀ j, j < i → q.availability.getD j false = false) ∧
      (q.getAvailability).2.availability = q.availability.set i false ∧
      (q.getAvailability).2.availabilityCount = q.availabilityCount - 1 := by
  have hcnt : 0 < q.availability.count true := by
    unfold AQInv at hinv
    omega
  have hmem : true ∈ q.availability := List.count_pos_iff.mp hcnt
  obtain ⟨i, hs⟩ := scanIdle_isSome_of_mem hmem
  obtain ⟨hlt, htrue, hleast⟩ := scanIdle_some_spec hs
  refine ⟨i, ?_, htrue, hleast, ?_, ?_⟩
  · rw [getAvailability_eq_some hs]
  · rw [getAvailability_eq_some hs, freeze_eq_of_true htrue]
  · rw [getAvailability_eq_some hs, freeze_eq_of_true htrue]

/-- Witness for C2: with slots {0,2,3} idle and {1} busy,
`getAvailability` returns 0. -/
theorem getAvailability_returns_least_idle_witness :
    AQInv aqC2 ∧ 0 < aqC2.availabilityCount ∧
    (aqC2.getAvailability).1 = 0 ∧
    (∃ i, (aqC2.getAvailability).1 = Int.ofNat i ∧
      aqC2.availability.getD i false = true ∧
      (∀ j, j < i → aqC2.availability.getD j false = false) ∧
      (aqC2.getAvailability).2.availability = aqC2.availability.set i false ∧
      (aqC2.getAvailability).2.availabilityCount = aqC2.availabilityCount - 1) :=
  ⟨by decide, by decide, by decide,
    getAvailability_returns_least_idle aqC2 (by decide) (by decide)⟩

/-- C10: under the idle-count invariant, whenever the scan runs
(`availabilityCount > 0`), the `-1` fallback is unreachable: the
returned id is a valid slot in `[0, N)`. -/
theorem getAvailability_fallback_unreachable (q : AvailabilityQueue)
    (hinv : AQInv q) (hpos : 0 < q.availabilityCount) :
    (q.getAvailability).1 ≠ -1 ∧
    ∃ i, (q.getAvailability).1 = Int.ofNat i ∧ i < q.availability.length := by
  have hcnt : 0 < q.availability.count true := by
    unfold AQInv at hinv
    omega
  have hmem : true ∈ q.availability := List.count_pos_iff.mp hcnt
  obtain ⟨i, hs⟩ := scanIdle_isSome_of_mem hmem
  obtain ⟨hlt, htrue, hleast⟩ := scanIdle_some_spec hs
  constructor
  · rw [getAvailability_eq_some hs]
    intro he
    simp at he
  · refine ⟨i, ?_, hlt⟩
    rw [getAvailability_eq_some hs]

/-- Witness for C10 on a 2-slot tracker with slot 1 idle. -/
theorem getAvailability_fallback_unreachable_witness :
    AQInv aqC10 ∧ 0 < aqC10.availabilityCount ∧
    ((aqC10.getAvailability).1 ≠ -1 ∧
      ∃ i, (aqC10.getAvailability).1 = Int.ofNat i ∧ i < aqC10.availability.length) :=
  ⟨by decide, by decide,
    getAvailability_fallback_unreachable aqC10 (by decide) (by decide)⟩

/-! ### Claim C8: retirement -/

theorem freeze_self_false (q : AvailabilityQueue) (s : Nat) :
    (q.freeze s).availability.getD s false = false := by
  unfold AvailabilityQueue.freeze
  split
  next h => exact getD_set_self_false
  next h => simpa using h

theorem freeze_keeps_false {q : AvailabilityQueue} {s id : Nat}
    (h : q.availability.getD s false = false) :
    (q.freeze id).availability.getD s false = false := by
  unfold AvailabilityQueue.freeze
  split
  · exact getD_set_false h
  · exact h

theorem enable_keeps_false {q : AvailabilityQueue} {s id : Nat} (hid : id ≠ s)
    (h : q.availability.getD s false = false) :
    (q.enable id).availability.getD s false = false := by
  unfold AvailabilityQueue.enable
  split
  · exact h
  · show (q.availability.set id true).getD s false = false
    rw [getD_set_ne true hid]
    exact h

theorem getAvailability_keeps_false {q : AvailabilityQueue} {s : Nat}
    (h : q.availability.getD s false = false) :
    (q.getAvailability).2.availability.getD s false = false := by
  cases hs : scanIdle q.availability with
  | none => rw [getAvailability_eq_none hs]; exact h
  | some i => rw [getAvailability_eq_some hs]; exact freeze_keeps_false h

theorem apply_keeps_false {q : AvailabilityQueue} {s : Nat} {op : AQOp}
    (hop : op ≠ AQOp.enable s)
    (h : q.availability.getD s false = false) :
    (op.apply q).availability.getD s false = false := by
  cases op with
  | freeze id => exact freeze_keeps_false h
  | enable id =>
      have hid : id ≠ s := fun he => hop (by rw [he])
      exact enable_keeps_false hid h
  | claim =>
      show (if 0 < q.availabilityCount then (q.getAvailability).2 else q).availability.getD s false = false
      split
      · exact getAvailability_keeps_false h
      · exact h

theorem applyOps_keeps_false {s : Nat} (ops : List AQOp) (q : AvailabilityQueue)
    (hne : ∀ op ∈ ops, op ≠ AQOp.enable s)
    (h : q.availability.getD s false = false) :
    (applyOps q ops).availability.getD s false = false := by
  induction ops generalizing q with
  | nil => exact h
  | cons op rest ih =>
      exact ih (op.apply q)
        (fun o ho => hne o (List.mem_cons_of_mem op ho))
        (apply_keeps_false (hne op (List.mem_cons_self op rest)) h)

theorem getAvailability_ne_of_false {q : AvailabilityQueue} {s : Nat}
    (h : q.availability.getD s false = false) :
    (q.getAvailability).1 ≠ Int.ofNat s := by
  cases hs : scanIdle q.availability with
  | none =>
      rw [getAvailability_eq_none hs]
      intro he
      simp at he
  | some i =>
      rw [getAvailability_eq_some hs]
      intro he
      have hi : i = s := by
        simpa using he
      subst hi
      obtain ⟨_, htrue, _⟩ := scanIdle_some_spec hs
      rw [h] at htrue
      exact Bool.noConfusion htrue

/-- C8: after `freeze s` (as performed by the worker-exit handler),
and under any further sequence of operations that never re-enables
slot `s`, no `getAvailability` call at any later point returns `s`. -/
theorem retired_slot_never_claimed (q : AvailabilityQueue) (s : Nat)
    (ops : List AQOp) (hne : ∀ op ∈ ops, op ≠ AQOp.enable s) (n : Nat) :
    ((applyOps (q.freeze s) (ops.take n)).getAvailability).1 ≠ Int.ofNat s := by
  apply getAvailability_ne_of_false
  apply applyOps_keeps_false
  · exact fun op ho => hne op (List.take_subset n ops ho)
  · exact freeze_self_false q s

/-- Witness for C8: slot 1 of a 3-slot tracker is retired; after the
concrete operation sequence `opsC8` the claim does not return 1. -/
theorem retired_slot_never_claimed_witness :
    (∀ op ∈ opsC8, op ≠ AQOp.enable 1) ∧
    ((applyOps (aqC8.freeze 1) (opsC8.take 3)).getAvailability).1 ≠ Int.ofNat 1 :=
  ⟨by decide, retired_slot_never_claimed aqC8 1 opsC8 (by decide) 3⟩

/-! ### Claim C6: the Gate state machine -/

/-- C6: `release` resumes at most the one currently-registered waiter
and clears the registration; a `release` with no registered waiter is
not buffered — an `acquire` begun afterwards leaves its caller
registered and suspended, and only a strictly later `release` resumes
it; and a second `acquire` while one is outstanding replaces the first
waiter's registration, orphaning it. -/
theorem lock_gate_semantics :
    (∀ l : Lock,
      runLock (l, []) [LockOp.signal] = ({ resolve := none }, l.resolve.toList)) ∧
    (∀ w : Nat,
      runLock ({ resolve := none }, []) [LockOp.signal, LockOp.wait w]
        = ({ resolve := some w }, []) ∧
      runLock ({ resolve := none }, []) [LockOp.signal, LockOp.wait w, LockOp.signal]
        = ({ resolve := none }, [w])) ∧
    (∀ (l : Lock) (w1 w2 : Nat),
      runLock (l, []) [LockOp.wait w1, LockOp.wait w2, LockOp.signal]
        = ({ resolve := none }, [w2])) := by
  refine ⟨?_, ?_, ?_⟩
  · intro l
    cases l with
    | mk r => cases r <;> rfl
  · intro w
    exact ⟨rfl, rfl⟩
  · intro l w1 w2
    rfl

/-! ### Chains in the node arena -/

theorem lt_of_get?_some {α : Type} {l : List α} {i : Nat} {a : α}
    (h : l.get? i = some a) : i < l.length := by
  by_contra hge
  rw [List.get?_eq_none.mpr (by omega)] at h
  cases h

theorem chain_ne_nil {V : Type} {nodes : List (Node V)} {i : Nat} {ids : List Nat}
    (hc : Chain nodes i ids) : ids ≠ [] := by
  cases hc <;> simp

theorem chain_head_eq {V : Type} {nodes : List (Node V)} {i : Nat} {ids : List Nat}
    (hc : Chain nodes i ids) : ∃ rest, ids = i :: rest := by
  cases hc with
  | single i nd hg hn => exact ⟨[], rfl⟩
  | cons i j nd hg hn ids hc => exact ⟨ids, rfl⟩

theorem chain_get?_head {V : Type} {nodes : List (Node V)} {i : Nat} {ids : List Nat}
    (hc : Chain nodes i ids) : ∃ nd, nodes.get? i = some nd := by
  cases hc with
  | single i nd hg hn => exact ⟨nd, hg⟩
  | cons i j nd hg hn ids hc => exact ⟨nd, hg⟩

theorem chain_mem_lt {V : Type} {nodes : List (Node V)} {i : Nat} {ids : List Nat}
    (hc : Chain nodes i ids) : ∀ k ∈ ids, k < nodes.length := by
  induction hc with
  | single i nd hg hn =>
      intro k hk
      simp at hk
      subst hk
      exact lt_of_get?_some hg
  | cons i j nd hg hn ids hc ih =>
      intro k hk
      rcases List.mem_cons.mp hk with hk | hk
      · subst hk
        exact lt_of_get?_some hg
      · exact ih k hk

theorem chain_set_preserve {V : Type} {nodes : List (Node V)} {x : Nat} {nx nd' : Node V}
    (hx : nodes.get? x = some nx) (hnext : nd'.next = nx.next)
    {i : Nat} {ids : List Nat} (hc : Chain nodes i ids) :
    Chain (nodes.set x nd') i ids := by
  induction hc with
  | single i nd hg hn =>
      by_cases hix : x = i
      · subst hix
        have hnd : nd = nx := by
          rw [hx] at hg
          exact (Option.some.inj hg).symm
        refine Chain.single x nd' ?_ ?_
        · rw [List.get?_set_eq_of_lt nd' (lt_of_get?_some hx)]
        · rw [hnext, ← hnd, hn]
      · refine Chain.single i nd ?_ hn
        rw [List.get?_set_ne nd' nodes hix]
        exact hg
  | cons i j nd hg hn ids hcc ih =>
      by_cases hix : x = i
      · subst hix
        have hnd : nd = nx := by
          rw [hx] at hg
          exact (Option.some.inj hg).symm
        refine Chain.cons x j nd' ?_ ?_ ids ih
        · rw [List.get?_set_eq_of_lt nd' (lt_of_get?_some hx)]
        · rw [hnext, ← hnd, hn]
      · refine Chain.cons i j nd ?_ hn ids ih
        rw [List.get?_set_ne nd' nodes hix]
        exact hg

theorem valueAt_set_preserve {V : Type} [Inhabited V] {nodes : List (Node V)}
    {x : Nat} {nx nd' : Node V}
    (hx : nodes.get? x = some nx) (hval : nd'.value = nx.value) (k : Nat) :
    valueAt (nodes.set x nd') k = valueAt nodes k := by
  by_cases hkx : x = k
  · subst hkx
    unfold valueAt
    rw [List.get?_set_eq_of_lt nd' (lt_of_get?_some hx), hx]
    simp [hval]
  · unfold valueAt
    rw [List.get?_set_ne nd' nodes hkx]

theorem valueAt_append {V : Type} [Inhabited V] {nodes ext : List (Node V)} {k : Nat}
    (hk : k < nodes.length) : valueAt (nodes ++ ext) k = valueAt nodes k := by
  unfold valueAt
  rw [List.get?_append hk]

/-! ### Equations for `push` and `pop` -/

theorem push_eq_empty {V : Type} (item : V) {q : TaskQueue V} (ht : q.tail = none) :
    q.push item =
      ({ q with nodes := q.nodes ++ [⟨none, none, item⟩],
                head := some q.nodes.length, tail := some q.nodes.length,
                lock := (q.lock.release).2 }, (q.lock.release).1) := by
  unfold TaskQueue.push
  rw [ht]

theorem push_eq_nonempty {V : Type} (item : V) {q : TaskQueue V} {t : Nat} {tn : Node V}
    (ht : q.tail = some t) (hgt : q.nodes.get? t = some tn) :
    q.push item =
      ({ q with nodes := (q.nodes.set t { tn with next := some q.nodes.length })
                   ++ [⟨some t, none, item⟩],
                tail := some q.nodes.length,
                lock := (q.lock.release).2 }, (q.lock.release).1) := by
  unfold TaskQueue.push
  rw [ht]
  simp only
  rw [hgt]

theorem pop_eq_empty {V : Type} {q : TaskQueue V} (hh : q.head = none) :
    q.pop = none := by
  unfold TaskQueue.pop
  rw [hh]

theorem pop_eq_last {V : Type} {q : TaskQueue V} {h : Nat} {nd : Node V}
    (hh : q.head = some h) (hg : q.nodes.get? h = some nd) (hht : q.tail = some h) :
    q.pop = some (nd.value, { q with head := none, tail := none }) := by
  unfold TaskQueue.pop
  rw [hh]
  simp only [hg, hht, if_pos]

theorem pop_eq_step {V : Type} {q : TaskQueue V} {h t h2 : Nat} {nd n2 : Node V}
    (hh : q.head = some h) (hg : q.nodes.get? h = some nd) (hht : q.tail = some t)
    (hne : h ≠ t) (hn : nd.next = some h2) (hg2 : q.nodes.get? h2 = some n2) :
    q.pop = some (nd.value,
      { q with nodes := q.nodes.set h2 ({ n2 with prev := none }), head := some h2 }) := by
  unfold TaskQueue.pop
  rw [hh]
  simp only [hg, hht]
  rw [if_neg (by simp [hne])]
  simp only [hn, hg2]

/-! ### `push` and `pop` against the abstraction -/

theorem chain_push {V : Type} {nodes : List (Node V)} {h t : Nat} {ids : List Nat}
    {tn : Node V} (hgt : nodes.get? t = some tn) (item : V)
    (hc : Chain nodes h ids) :
    ids.getLast? = some t → ids.Nodup →
    Chain ((nodes.set t { tn with next := some nodes.length }) ++ [⟨some t, none, item⟩])
      h (ids ++ [nodes.length]) := by
  induction hc with
  | single i nd hg hn =>
      intro hlast hnd
      have hti : t = i := by
        have : some i = some t := by simpa using hlast
        exact (Option.some.inj this).symm
      subst hti
      have htl : t < nodes.length := lt_of_get?_some hgt
      have hget : ((nodes.set t { tn with next := some nodes.length })
          ++ [(⟨some t, none, item⟩ : Node V)]).get? t
          = some { tn with next := some nodes.length } := by
        rw [List.get?_append (by simpa using htl)]
        exact List.get?_set_eq_of_lt _ htl
      have hgetN : ((nodes.set t { tn with next := some nodes.length })
          ++ [(⟨some t, none, item⟩ : Node V)]).get? nodes.length
          = some ⟨some t, none, item⟩ := by
        have h1 := List.get?_concat_length
          (nodes.set t { tn with next := some nodes.length }) (⟨some t, none, item⟩ : Node V)
        rw [List.length_set] at h1
        exact h1
      exact Chain.cons t nodes.length { tn with next := some nodes.length } hget rfl
        [nodes.length] (Chain.single nodes.length ⟨some t, none, item⟩ hgetN rfl)
  | cons i j nd hg hn ids' hcc ih =>
      intro hlast hnd
      have hne : ids' ≠ [] := chain_ne_nil hcc
      have hlast' : ids'.getLast? = some t := by
        rw [← hlast]
        cases ids' with
        | nil => exact absurd rfl hne
        | cons a l => rfl
      have htmem : t ∈ ids' := List.mem_of_mem_getLast? hlast'
      have hinotmem : i ∉ ids' := (List.nodup_cons.mp hnd).1
      have hit : i ≠ t := fun he => hinotmem (he ▸ htmem)
      have ih' := ih hlast' (List.nodup_cons.mp hnd).2
      rw [List.cons_append]
      refine Chain.cons i j nd ?_ hn _ ih'
      rw [List.get?_append (by simpa using lt_of_get?_some hg)]
      rw [List.get?_set_ne _ _ (Ne.symm hit)]
      exact hg

theorem push_abs {V : Type} [Inhabited V] {q : TaskQueue V} {l : List V} (item : V)
    (habs : Abs q l) : Abs (q.push item).1 (l ++ [item]) := by
  rcases habs with ⟨hh, ht, hl⟩ | ⟨h, t, ids, hh, ht, hc, hlast, hnd, hl⟩
  · subst hl
    rw [push_eq_empty item ht]
    refine Or.inr ⟨q.nodes.length, q.nodes.length, [q.nodes.length], rfl, rfl, ?_,
      by simp, by simp, ?_⟩
    · exact Chain.single _ ⟨none, none, item⟩ (List.get?_concat_length _ _) rfl
    · simp only [List.map_cons, List.map_nil, List.nil_append]
      unfold valueAt
      rw [List.get?_concat_length]
      rfl
  · have htl : t < q.nodes.length :=
      chain_mem_lt hc t (List.mem_of_mem_getLast? hlast)
    obtain ⟨tn, hgt⟩ : ∃ nd, q.nodes.get? t = some nd := by
      cases hg : q.nodes.get? t with
      | some nd => exact ⟨nd, rfl⟩
      | none =>
          rw [List.get?_eq_none] at hg
          omega
    rw [push_eq_nonempty item ht hgt]
    have hnidmem : q.nodes.length ∉ ids := fun hm => by
      have := chain_mem_lt hc _ hm
      omega
    refine Or.inr ⟨h, q.nodes.length, ids ++ [q.nodes.length], hh, rfl,
      chain_push hgt item hc hlast hnd, by simp, ?_, ?_⟩
    · rw [List.nodup_append]
      exact ⟨hnd, List.nodup_singleton _, by simpa using hnidmem⟩
    · rw [List.map_append, hl]
      have hv1 : ids.map (valueAt ((q.nodes.set t { tn with next := some q.nodes.length })
          ++ [⟨some t, none, item⟩])) = ids.map (valueAt q.nodes) := by
        apply List.map_congr_left
        intro k hk
        have hkl : k < q.nodes.length := chain_mem_lt hc k hk
        rw [valueAt_append (by simpa using hkl)]
        exact @valueAt_set_preserve V _ q.nodes t tn
          { tn with next := some q.nodes.length } hgt rfl k
      have hv2 : valueAt ((q.nodes.set t { tn with next := some q.nodes.length })
          ++ [(⟨some t, none, item⟩ : Node V)]) q.nodes.length = item := by
        unfold valueAt
        have h1 := List.get?_concat_length
          (q.nodes.set t { tn with next := some q.nodes.length })
          (⟨some t, none, item⟩ : Node V)
        rw [List.length_set] at h1
        rw [h1]
        rfl
      rw [hv1, List.map_cons, List.map_nil, hv2]

theorem pop_none_of_abs_nil {V : Type} [Inhabited V] {q : TaskQueue V}
    (habs : Abs q []) : q.pop = none := by
  rcases habs with ⟨hh, ht, hl⟩ | ⟨h, t, ids, hh, ht, hc, hlast, hnd, hl⟩
  · exact pop_eq_empty hh
  · exact absurd (List.map_eq_nil.mp hl.symm) (chain_ne_nil hc)

theorem pop_abs {V : Type} [Inhabited V] {q : TaskQueue V} {v : V} {l : List V}
    (habs : Abs q (v :: l)) : ∃ q2, q.pop = some (v, q2) ∧ Abs q2 l := by
  rcases habs with ⟨hh, ht, hl⟩ | ⟨h, t, ids, hh, ht, hc, hlast, hnd, hl⟩
  · cases hl
  · cases hc with
    | single i nd hg hn =>
        have hth : t = h := by
          have : some h = some t := by simpa using hlast
          exact (Option.some.inj this).symm
        subst hth
        have hl' : v :: l = [valueAt q.nodes t] := by
          simpa using hl
        have hv : v = valueAt q.nodes t := (List.cons.injEq _ _ _ _ ▸ hl').1
        have hl0 : l = [] := (List.cons.injEq _ _ _ _ ▸ hl').2
        have hvnd : nd.value = v := by
          rw [hv]
          unfold valueAt
          rw [hg]
          rfl
        refine ⟨{ q with head := none, tail := none }, ?_, Or.inl ⟨rfl, rfl, hl0⟩⟩
        rw [pop_eq_last hh hg ht, hvnd]
    | cons i j nd hg hn rest hcc =>
        have hrne : rest ≠ [] := chain_ne_nil hcc
        have hlast' : rest.getLast? = some t := by
          rw [← hlast]
          cases rest with
          | nil => exact absurd rfl hrne
          | cons a rl => rfl
        have htmem : t ∈ rest := List.mem_of_mem_getLast? hlast'
        have hhnotmem : h ∉ rest := (List.nodup_cons.mp hnd).1
        have hht : h ≠ t := fun he => hhnotmem (he ▸ htmem)
        obtain ⟨n2, hgj⟩ := chain_get?_head hcc
        have hl' : v :: l = valueAt q.nodes h :: rest.map (valueAt q.nodes) := by
          simpa using hl
        have hv : v = valueAt q.nodes h := (List.cons.injEq _ _ _ _ ▸ hl').1
        have hl0 : l = rest.map (valueAt q.nodes) := (List.cons.injEq _ _ _ _ ▸ hl').2
        have hvnd : nd.value = v := by
          rw [hv]
          unfold valueAt
          rw [hg]
          rfl
        refine ⟨{ q with
            nodes := q.nodes.set j ({ n2 with prev := none })
            head := some j }, ?_, ?_⟩
        · rw [pop_eq_step hh hg ht hht hn hgj, hvnd]
        · refine Or.inr ⟨j, t, rest, rfl, ht,
            @chain_set_preserve V q.nodes j n2 ({ n2 with prev := none }) hgj rfl j rest hcc,
            hlast', (List.nodup_cons.mp hnd).2, ?_⟩
          rw [hl0]
          symm
          apply List.map_congr_left
          intro k hk
          exact @valueAt_set_preserve V _ q.nodes j n2 ({ n2 with prev := none }) hgj rfl k

/-! ### Reading the queue contents back -/

theorem chainList_eq_of_chain {V : Type} [Inhabited V] {nodes : List (Node V)}
    {i : Nat} {ids : List Nat} (hc : Chain nodes i ids) :
    ∀ fuel, ids.length ≤ fuel → chainList nodes fuel (some i) = ids.map (valueAt nodes) := by
  induction hc with
  | single i nd hg hn =>
      intro fuel hfuel
      cases fuel with
      | zero => simp at hfuel
      | succ f =>
          unfold chainList
          simp only [hg, hn]
          have hnil : chainList nodes f none = [] := by cases f <;> rfl
          have hg2 : nodes[i]? = some nd := by
            rw [← List.get?_eq_getElem?]
            exact hg
          rw [hnil]
          simp [valueAt, hg2]
  | cons i j nd hg hn ids hcc ih =>
      intro fuel hfuel
      cases fuel with
      | zero => simp at hfuel
      | succ f =>
          unfold chainList
          simp only [hg, hn]
          rw [ih f (by simp at hfuel; omega)]
          have hg2 : nodes[i]? = some nd := by
            rw [← List.get?_eq_getElem?]
            exact hg
          simp [valueAt, hg2]

theorem nodup_length_le {ids : List Nat} {n : Nat} (hnd : ids.Nodup)
    (hlt : ∀ k ∈ ids, k < n) : ids.length ≤ n := by
  have h1 : ids.toFinset.card = ids.length := List.toFinset_card_of_nodup hnd
  have h2 : ids.toFinset ⊆ Finset.range n := by
    intro x hx
    exact Finset.mem_range.mpr (hlt x (List.mem_toFinset.mp hx))
  have h3 := Finset.card_le_card h2
  rw [h1, Finset.card_range] at h3
  exact h3

theorem toList_eq_of_abs {V : Type} [Inhabited V] {q : TaskQueue V} {l : List V}
    (habs : Abs q l) : q.toList = l := by
  rcases habs with ⟨hh, ht, hl⟩ | ⟨h, t, ids, hh, ht, hc, hlast, hnd, hl⟩
  · subst hl
    unfold TaskQueue.toList
    rw [hh]
    cases q.nodes.length <;> rfl
  · unfold TaskQueue.toList
    rw [hh, hl]
    exact chainList_eq_of_chain hc q.nodes.length
      (nodup_length_le hnd (chain_mem_lt hc))

theorem abs_head_iff {V : Type} [Inhabited V] {q : TaskQueue V} {l : List V}
    (habs : Abs q l) :
    (q.head = none ↔ q.tail = none) ∧ (q.head = none ↔ l = []) := by
  rcases habs with ⟨hh, ht, hl⟩ | ⟨h, t, ids, hh, ht, hc, hlast, hnd, hl⟩
  · subst hl
    exact ⟨by rw [hh, ht], by simp [hh]⟩
  · have hlne : l ≠ [] := by
      rw [hl]
      intro hx
      exact chain_ne_nil hc (List.map_eq_nil.mp hx)
    rw [hh, ht]
    constructor
    · simp
    · simp [hlne]

/-! ### The producer/consumer trace invariant -/

theorem foldl_queue_inv {V : Type} [Inhabited V] (ops : List (QOp V)) (s : QTrace V)
    (l0 : List V) (habs : Abs s.queue l0) (hlog : s.pushed = s.popped ++ l0) :
    ∃ l, Abs (ops.foldl QOp.apply s).queue l ∧
      (ops.foldl QOp.apply s).pushed = (ops.foldl QOp.apply s).popped ++ l := by
  induction ops generalizing s l0 with
  | nil => exact ⟨l0, habs, hlog⟩
  | cons op rest ih =>
      rw [List.foldl_cons]
      cases op with
      | push v =>
          refine ih (QOp.apply s (QOp.push v)) (l0 ++ [v]) ?_ ?_
          · exact push_abs v habs
          · show s.pushed ++ [v] = s.popped ++ (l0 ++ [v])
            rw [hlog, List.append_assoc]
      | pop =>
          cases l0 with
          | nil =>
              have hpop : s.queue.pop = none := pop_none_of_abs_nil habs
              have hstep : QOp.apply s QOp.pop = s := by
                unfold QOp.apply
                rw [hpop]
              rw [hstep]
              exact ih s [] habs hlog
          | cons v l0e =>
              obtain ⟨q2, hpop, habs2⟩ := pop_abs habs
              have hstep : QOp.apply s QOp.pop
                  = { s with queue := q2, popped := s.popped ++ [v] } := by
                unfold QOp.apply
                rw [hpop]
              rw [hstep]
              refine ih _ l0e habs2 ?_
              show s.pushed = (s.popped ++ [v]) ++ l0e
              rw [hlog, List.append_assoc]
              rfl

/-- C3: for every interleaving of pushes and pops starting from the
empty queue, the values the consumer has been yielded are exactly the
first `k` values pushed (`k` = number of successful pops), in order —
no task lost, duplicated or reordered — and the values still in the
queue are exactly the pushed values not yet yielded. -/
theorem taskqueue_fifo {V : Type} [Inhabited V] (ops : List (QOp V)) :
    ∃ l, Abs (runQueue ops).queue l ∧
      (runQueue ops).pushed = (runQueue ops).popped ++ l ∧
      (runQueue ops).popped
        = (runQueue ops).pushed.take (runQueue ops).popped.length := by
  unfold runQueue
  obtain ⟨l, habs, heq⟩ := foldl_queue_inv ops
    { queue := mkTaskQueue V, pushed := [], popped := [] } []
    (Or.inl ⟨rfl, rfl, rfl⟩) rfl
  refine ⟨l, habs, heq, ?_⟩
  rw [heq, List.take_left]

/-- C9: after any sequence of pushes and pops starting from the empty
queue, `head` is null iff `tail` is null, and both are null iff the
queue holds no tasks. -/
theorem taskqueue_head_tail_invariant {V : Type} [Inhabited V] (ops : List (QOp V)) :
    ((runQueue ops).queue.head = none ↔ (runQueue ops).queue.tail = none) ∧
    ((runQueue ops).queue.head = none ↔ (runQueue ops).queue.toList = []) := by
  unfold runQueue
  obtain ⟨l, habs, heq⟩ := foldl_queue_inv ops
    { queue := mkTaskQueue V, pushed := [], popped := [] } []
    (Or.inl ⟨rfl, rfl, rfl⟩) rfl
  obtain ⟨h1, h2⟩ := abs_head_iff habs
  refine ⟨h1, ?_⟩
  rw [toList_eq_of_abs habs]
  exact h2

/-! ### Claim C7: when `push` signals the Gate -/

/-- C7 counterexample: `tqC7` holds one task (it is not empty), yet
pushing onto it still signals the Gate — the registered waiter 5 is
resumed — because `push` calls `this.lock.release()` unconditionally,
not only on the empty-to-non-empty transition. -/
theorem push_signals_on_nonempty_queue :
    tqC7.toList = [42] ∧ tqC7.lock.resolve = some 5 ∧
    (tqC7.push 7).2 = some 5 ∧ (tqC7.push 7).1.lock.resolve = none := by
  refine ⟨rfl, rfl, rfl, rfl⟩

/-- C7 amended: `push` appends the item at the tail and then signals
the queue's Gate unconditionally — on every push, not only when the
queue transitions from empty to non-empty.  The signal resumes the
registered waiter if one exists and is a no-op otherwise. -/
theorem push_always_signals {V : Type} [Inhabited V] (q : TaskQueue V) (v : V)
    (l : List V) (habs : Abs q l) :
    (q.push v).2 = q.lock.resolve ∧ (q.push v).1.lock.resolve = none ∧
    Abs (q.push v).1 (l ++ [v]) := by
  refine ⟨?_, ?_, push_abs v habs⟩
  · unfold TaskQueue.push Lock.release
    cases ht : q.tail <;> cases hr : q.lock.resolve <;> simp [hr]
  · unfold TaskQueue.push Lock.release
    cases ht : q.tail <;> cases hr : q.lock.resolve <;> simp [hr]

/-- Witness for the amended C7 at the concrete queue `tqC7`. -/
theorem push_always_signals_witness :
    Abs tqC7 [42] ∧
    ((tqC7.push 7).2 = tqC7.lock.resolve ∧ (tqC7.push 7).1.lock.resolve = none ∧
      Abs (tqC7.push 7).1 ([42] ++ [7])) := by
  have habs : Abs tqC7 [42] :=
    Or.inr ⟨0, 0, [0], rfl, rfl,
      Chain.single 0 ⟨none, none, 42⟩ rfl rfl, rfl, List.nodup_singleton 0, rfl⟩
  exact ⟨habs, push_always_signals tqC7 7 [42] habs⟩

/-! ### The pending-result table -/

theorem mapDelete_lookup_self {Cb : Type} (m : List (Nat × Cb)) (k : Nat) :
    (mapDelete m k).lookup k = none := by
  induction m with
  | nil => rfl
  | cons a rest ih =>
      obtain ⟨x, y⟩ := a
      unfold mapDelete at ih ⊢
      rw [List.filter_cons]
      by_cases hxk : x = k
      · simp only [hxk, bne_self_eq_false, Bool.false_eq_true, if_false]
        exact ih
      · rw [show ((x, y).1 != k) = true by simp [hxk], if_pos rfl]
        rw [List.lookup_cons, show (k == x) = false by simp [Ne.symm hxk]]
        exact ih

theorem mapDelete_lookup_ne {Cb : Type} (m : List (Nat × Cb)) (k j : Nat)
    (hjk : j ≠ k) : (mapDelete m k).lookup j = m.lookup j := by
  induction m with
  | nil => rfl
  | cons a rest ih =>
      obtain ⟨x, y⟩ := a
      unfold mapDelete at ih ⊢
      rw [List.filter_cons]
      by_cases hxk : x = k
      · have hjx : j ≠ x := by rw [hxk]; exact hjk
        simp only [hxk, bne_self_eq_false, Bool.false_eq_true, if_false]
        rw [ih, List.lookup_cons]
        rw [show (j == k) = false by simp [hjk]]
      · rw [show ((x, y).1 != k) = true by simp [hxk], if_pos rfl]
        rw [List.lookup_cons, List.lookup_cons]
        by_cases hjx : j = x
        · rw [show (j == x) = true by simp [hjx]]
        · rw [show (j == x) = false by simp [hjx]]
          exact ih

theorem mapDelete_eq_of_lookup_none {Cb : Type} (m : List (Nat × Cb)) (k : Nat)
    (h : m.lookup k = none) : mapDelete m k = m := by
  induction m with
  | nil => rfl
  | cons a rest ih =>
      obtain ⟨x, y⟩ := a
      rw [List.lookup_cons] at h
      by_cases hkx : k = x
      · rw [show (k == x) = true by simp [hkx]] at h
        exact Option.noConfusion h
      · rw [show (k == x) = false by simp [hkx]] at h
        unfold mapDelete at ih ⊢
        rw [List.filter_cons]
        rw [show ((x, y).1 != k) = true by simp [Ne.symm hkx], if_pos rfl]
        rw [ih h]

theorem mapDelete_keys_nodup {Cb : Type} (m : List (Nat × Cb)) (k : Nat)
    (h : (m.map Prod.fst).Nodup) : ((mapDelete m k).map Prod.fst).Nodup := by
  have hsub : List.Sublist (mapDelete m k) m := List.filter_sublist m
  exact (hsub.map Prod.fst).nodup h

theorem lookup_append_fresh {Cb : Type} (m : List (Nat × Cb)) (k : Nat) (v : Cb)
    (h : m.lookup k = none) : (m ++ [(k, v)]).lookup k = some v := by
  induction m with
  | nil =>
      rw [List.nil_append, List.lookup_cons]
      rw [show (k == k) = true by simp]
  | cons a rest ih =>
      obtain ⟨x, y⟩ := a
      rw [List.lookup_cons] at h
      by_cases hkx : k = x
      · rw [show (k == x) = true by simp [hkx]] at h
        exact Option.noConfusion h
      · rw [show (k == x) = false by simp [hkx]] at h
        rw [List.cons_append, List.lookup_cons]
        rw [show (k == x) = false by simp [hkx]]
        exact ih h

theorem lookup_append_ne {Cb : Type} (m : List (Nat × Cb)) (k j : Nat) (v : Cb)
    (hjk : j ≠ k) : (m ++ [(k, v)]).lookup j = m.lookup j := by
  induction m with
  | nil =>
      rw [List.nil_append, List.lookup_cons]
      rw [show (j == k) = false by simp [hjk]]
  | cons a rest ih =>
      obtain ⟨x, y⟩ := a
      rw [List.cons_append, List.lookup_cons, List.lookup_cons]
      by_cases hjx : j = x
      · rw [show (j == x) = true by simp [hjx]]
      · rw [show (j == x) = false by simp [hjx]]
        exact ih

theorem mapSet_fresh_lookup_self {Cb : Type} (m : List (Nat × Cb)) (k : Nat) (v : Cb)
    (h : m.lookup k = none) : (mapSet m k v).lookup k = some v := by
  unfold mapSet
  rw [h]
  simp only [Option.isSome_none, Bool.false_eq_true, if_false]
  exact lookup_append_fresh m k v h

theorem mapSet_fresh_lookup_ne {Cb : Type} (m : List (Nat × Cb)) (k j : Nat) (v : Cb)
    (h : m.lookup k = none) (hjk : j ≠ k) : (mapSet m k v).lookup j = m.lookup j := by
  unfold mapSet
  rw [h]
  simp only [Option.isSome_none, Bool.false_eq_true, if_false]
  exact lookup_append_ne m k j v hjk

/-! ### Claim C4: the completion-event handler -/

/-- C4: on a completion event `{id, result}` from the worker at slot
`workerId`: if a Pending Result is registered under `id`, it is
invoked with `result` (the emitted event) and removed from the table;
if none is registered, the event is dropped silently — no error, table
unchanged.  In either case the slot is then marked idle and no entry
for `id` survives the handler, and uniqueness of table keys is
preserved. -/
theorem completion_event_handling {P Cb R : Type} (p : WorkerPool P Cb)
    (workerId id : Nat) (result : R) :
    ((onMessage workerId id result p).2
        = (mapGet p.notifications id).map (fun cb => (cb, result))) ∧
    mapGet (onMessage workerId id result p).1.notifications id = none ∧
    (∀ k, k ≠ id → mapGet (onMessage workerId id result p).1.notifications k
        = mapGet p.notifications k) ∧
    (mapGet p.notifications id = none →
      (onMessage workerId id result p).2 = none ∧
      (onMessage workerId id result p).1.notifications = p.notifications) ∧
    (onMessage workerId id result p).1.availability = p.availability.enable workerId ∧
    (onMessage workerId id result p).1.taskQueue = p.taskQueue ∧
    ((p.notifications.map Prod.fst).Nodup →
      ((onMessage workerId id result p).1.notifications.map Prod.fst).Nodup) := by
  refine ⟨rfl, ?_, ?_, ?_, rfl, rfl, ?_⟩
  · exact mapDelete_lookup_self p.notifications id
  · intro k hk
    exact mapDelete_lookup_ne p.notifications id k hk
  · intro hnone
    refine ⟨?_, mapDelete_eq_of_lookup_none p.notifications id hnone⟩
    show (mapGet p.notifications id).map (fun cb => (cb, result)) = none
    rw [hnone]
    rfl
  · exact mapDelete_keys_nodup p.notifications id

/-- Witness for C4: the handler applied to the concrete pool `poolC4`,
once for a registered id (5) and once for an unknown id (9). -/
theorem completion_event_handling_witness :
    ((onMessage 0 5 (77 : Nat) poolC4).2 = some (50, 77) ∧
      mapGet (onMessage 0 5 (77 : Nat) poolC4).1.notifications 5 = none ∧
      mapGet (onMessage 0 5 (77 : Nat) poolC4).1.notifications 7 = some 70) ∧
    ((onMessage 0 9 (88 : Nat) poolC4).2 = none ∧
      (onMessage 0 9 (88 : Nat) poolC4).1.notifications = poolC4.notifications) := by
  have h5 := completion_event_handling poolC4 0 5 (77 : Nat)
  have h9 := completion_event_handling poolC4 0 9 (88 : Nat)
  refine ⟨⟨?_, h5.2.1, ?_⟩, ?_⟩
  · rw [h5.1]
    rfl
  · rw [h5.2.2.1 7 (by decide)]
    rfl
  · exact h9.2.2.2.1 rfl

/-! ### Claim C5: `addTask` -/

/-- C5: `addTask` succeeds on every pool state — it consults neither
the worker list nor the availability tracker, so it cannot block on
worker availability and no step can fail.  Provided the generated id
is fresh (as `crypto.randomUUID` is relied upon to ensure), it
registers the Pending Result under that id, pushes `{id, data}` onto
the task queue leaving it exactly one task longer, and leaves every
other table entry and the availability tracker untouched. -/
theorem addTask_registers_and_enqueues {P Cb : Type} [Inhabited P]
    (p : WorkerPool P Cb) (id : Nat) (cb : Cb) (data : P) (l : List (Task P))
    (hfresh : mapGet p.notifications id = none)
    (habs : Abs p.taskQueue l) :
    mapGet (addTask id cb data p).notifications id = some cb ∧
    (∀ k, k ≠ id → mapGet (addTask id cb data p).notifications k
        = mapGet p.notifications k) ∧
    Abs (addTask id cb data p).taskQueue (l ++ [{ id := id, data := data }]) ∧
    (addTask id cb data p).taskQueue.toList.length
        = p.taskQueue.toList.length + 1 ∧
    (addTask id cb data p).availability = p.availability := by
  refine ⟨?_, ?_, ?_, ?_, rfl⟩
  · exact mapSet_fresh_lookup_self p.notifications id cb hfresh
  · intro k hk
    exact mapSet_fresh_lookup_ne p.notifications id k cb hfresh hk
  · exact push_abs _ habs
  · show ((p.taskQueue.push { id := id, data := data }).1.toList).length
        = p.taskQueue.toList.length + 1
    rw [toList_eq_of_abs habs,
      toList_eq_of_abs (push_abs { id := id, data := data } habs)]
    simp

/-- Witness for C5 on the fresh pool `poolC5`. -/
theorem addTask_registers_and_enqueues_witness :
    mapGet poolC5.notifications 3 = none ∧ Abs poolC5.taskQueue [] ∧
    (mapGet (addTask 3 30 (1 : Nat) poolC5).notifications 3 = some 30 ∧
      (∀ k, k ≠ 3 → mapGet (addTask 3 30 (1 : Nat) poolC5).notifications k
          = mapGet poolC5.notifications k) ∧
      Abs (addTask 3 30 (1 : Nat) poolC5).taskQueue ([] ++ [{ id := 3, data := 1 }]) ∧
      (addTask 3 30 (1 : Nat) poolC5).taskQueue.toList.length
          = poolC5.taskQueue.toList.length + 1 ∧
      (addTask 3 30 (1 : Nat) poolC5).availability = poolC5.availability) :=
  ⟨rfl, Or.inl ⟨rfl, rfl, rfl⟩,
    addTask_registers_and_enqueues poolC5 3 30 1 [] rfl (Or.inl ⟨rfl, rfl, rfl⟩)⟩

end WorkerPoolTS
